import Mathlib

/-!
Verification development for the VAST meta index
(libvast/src/system/meta_index.cpp).

The meta index maps partition identifiers to partition synopses and
answers expression lookups with a sorted list of candidate partition
identifiers.  The definitions below embed meta_index_state::lookup and
its helpers.  Collaborators that live outside the embedded translation
unit (the type model, the data views, the synopsis trait, the set
operations of vast/detail/set_operations.hpp and the relational
evaluator) are modelled from the specification, as indicated by their
doc comments.
-/

namespace Vast

/-- Modelled from the spec: the relational operators of predicates
(RelOp of section 3). -/
inductive RelOp where
  | equal
  | notEqual
  | less
  | lessEqual
  | greater
  | greaterEqual
  | inOp
  | notIn
  | matchOp
  | notMatchOp
deriving DecidableEq, Repr

/-- Modelled from the spec: is_negated(op) returns true for the negated
operators (section 4.B). -/
def isNegated : RelOp → Bool
  | .notEqual => true
  | .notIn => true
  | .notMatchOp => true
  | _ => false

mutual
/-- Modelled from the spec: a type carries an optional display name (empty
string means absent), a set of string attributes, and a structural base
(section 3, Type). -/
inductive VType where
  | mk (name : String) (attrs : List String) (base : BaseType)

/-- Modelled from the spec: the structural alternatives of a type
(section 3, Type). -/
inductive BaseType where
  | tnone
  | tbool
  | tinteger
  | tcount
  | treal
  | ttime
  | tduration
  | tstring
  | tpat
  | taddress
  | tsubnet
  | tport
  | tenumeration (fields : List String)
  | tlist (elem : VType)
  | tmap (key : VType) (val : VType)
  | trecord (fields : List (String × VType))
end

/-- The display name of a type. -/
def VType.name : VType → String
  | .mk n _ _ => n

/-- The attribute set of a type. -/
def VType.attrs : VType → List String
  | .mk _ a _ => a

/-- The structural base of a type. -/
def VType.base : VType → BaseType
  | .mk _ _ b => b

mutual
/-- Modelled from the spec: full type equality, comparing display name,
attributes and structure (the equality mode that does not ignore name and
attributes, section 4.A); used as the key equality of the type synopsis
map. -/
def VType.fullEq : VType → VType → Bool
  | .mk n1 a1 b1, .mk n2 a2 b2 => n1 == n2 && a1 == a2 && BaseType.fullEq b1 b2

/-- Full structural equality of type bases. -/
def BaseType.fullEq : BaseType → BaseType → Bool
  | .tnone, .tnone => true
  | .tbool, .tbool => true
  | .tinteger, .tinteger => true
  | .tcount, .tcount => true
  | .treal, .treal => true
  | .ttime, .ttime => true
  | .tduration, .tduration => true
  | .tstring, .tstring => true
  | .tpat, .tpat => true
  | .taddress, .taddress => true
  | .tsubnet, .tsubnet => true
  | .tport, .tport => true
  | .tenumeration f1, .tenumeration f2 => f1 == f2
  | .tlist e1, .tlist e2 => VType.fullEq e1 e2
  | .tmap k1 v1, .tmap k2 v2 => VType.fullEq k1 k2 && VType.fullEq v1 v2
  | .trecord f1, .trecord f2 => recordFieldsFullEq f1 f2
  | _, _ => false

/-- Full equality of record field lists. -/
def recordFieldsFullEq : List (String × VType) → List (String × VType) → Bool
  | [], [] => true
  | (n1, t1) :: r1, (n2, t2) :: r2 =>
    n1 == n2 && VType.fullEq t1 t2 && recordFieldsFullEq r1 r2
  | _, _ => false
end

mutual
/-- Modelled from the spec: structural type equality ignoring display
names and attributes (the second comparison mode of section 4.A, used by
the type extractor matching rule of section 4.F). -/
def VType.structEq : VType → VType → Bool
  | .mk _ _ b1, .mk _ _ b2 => BaseType.structEq b1 b2

/-- Structural equality of type bases ignoring names and attributes of
nested types. -/
def BaseType.structEq : BaseType → BaseType → Bool
  | .tnone, .tnone => true
  | .tbool, .tbool => true
  | .tinteger, .tinteger => true
  | .tcount, .tcount => true
  | .treal, .treal => true
  | .ttime, .ttime => true
  | .tduration, .tduration => true
  | .tstring, .tstring => true
  | .tpat, .tpat => true
  | .taddress, .taddress => true
  | .tsubnet, .tsubnet => true
  | .tport, .tport => true
  | .tenumeration f1, .tenumeration f2 => f1 == f2
  | .tlist e1, .tlist e2 => VType.structEq e1 e2
  | .tmap k1 v1, .tmap k2 v2 => VType.structEq k1 k2 && VType.structEq v1 v2
  | .trecord f1, .trecord f2 => recordFieldsStructEq f1 f2
  | _, _ => false

/-- Structural equality of record field lists: record field names are part
of the structure, only type display names and attributes are ignored. -/
def recordFieldsStructEq : List (String × VType) → List (String × VType) → Bool
  | [], [] => true
  | (n1, t1) :: r1, (n2, t2) :: r2 =>
    n1 == n2 && VType.structEq t1 t2 && recordFieldsStructEq r1 r2
  | _, _ => false
end

/-- Modelled from the spec: has_attribute(t, key) queries the attribute
set of a type by key (sections 3 and 4.A). -/
def hasAttribute (t : VType) (key : String) : Bool :=
  t.attrs.contains key

/-- The embedding of vast::type{t}.attributes({}): the same type with its
attribute set replaced by the empty set; the display name and the
structure are kept. -/
def stripAttributes : VType → VType
  | .mk n _ b => .mk n [] b

/-- Modelled from the spec: the tagged union value domain used for probe
keys and predicate right hand sides (section 3, Data / View).  The meta
index inspects only the string alternative; all other payloads are opaque
probe data that is handed to synopses and to the external relational
evaluator. -/
inductive VData where
  | dnone
  | dbool (b : Bool)
  | dinteger (i : Int)
  | dcount (n : Nat)
  | dreal (bits : Nat)
  | dtime (t : Int)
  | dduration (d : Int)
  | str (s : String)
  | dpat (p : String)
  | daddress (a : Nat)
  | dsubnet (a : Nat) (len : Nat)
  | dport (n : Nat)
  | denumeration (n : Nat)
  | dlist (xs : List VData)
  | dmap (xs : List (VData × VData))
  | drecord (xs : List VData)

/-- The embedding of caf::get_if of the string alternative of a data
value. -/
def VData.getStr : VData → Option String
  | .str s => some s
  | _ => Option.none

/-- Modelled from the spec: a synopsis is consulted by the meta index only
through lookup(op, view(rhs)) returning Option Bool, where none means the
synopsis cannot decide (section 3, Synopsis).  We model a synopsis by that
lookup function. -/
def Synopsis : Type := RelOp → VData → Option Bool

/-- Modelled from the spec: a field key carries the layout name, the fully
qualified name and the field type (section 3, Field key).  This embeds
vast::qualified_record_field as consumed by the meta index, with fqn the
value of the fqn() accessor. -/
structure QualifiedField where
  layout_name : String
  fqn : String
  type : VType

/-- The embedding of vast::partition_synopsis as consumed by the meta
index: per field synopses (an entry with Option.none records a field
without a dedicated synopsis) and fallback synopses per type. -/
structure PartitionSynopsis where
  field_synopses_ : List (QualifiedField × Option Synopsis)
  type_synopses_ : List (VType × Option Synopsis)

/-- The embedding of meta_index_state: the synopses map from partition id
to partition synopsis.  Partition identifiers are opaque totally ordered
values (128 bit uuids in the source), modelled as naturals; the map is
modelled as an association list whose keys are unique. -/
structure MetaIndexState where
  synopses : List (Nat × PartitionSynopsis)

/-- The map invariant of the synopses map: keys are unique. -/
def MetaIndexState.keysNodup (s : MetaIndexState) : Prop :=
  (s.synopses.map Prod.fst).Nodup

instance (s : MetaIndexState) : Decidable s.keysNodup := by
  unfold MetaIndexState.keysNodup
  infer_instance

/-- The embedding of meta_index_state::erase: remove the entry of the
given partition id, if any. -/
def MetaIndexState.erase (s : MetaIndexState) (pid : Nat) : MetaIndexState :=
  ⟨s.synopses.filter (fun p => p.1 != pid)⟩

/-- The embedding of meta_index_state::merge: insert or replace the entry
of the given partition id. -/
def MetaIndexState.merge (s : MetaIndexState) (pid : Nat) (ps : PartitionSynopsis) :
    MetaIndexState :=
  ⟨(s.synopses.filter (fun p => p.1 != pid)) ++ [(pid, ps)]⟩

/-- Modelled from the spec: the external relational evaluator
evaluate(lhs, op, rhs) of section 4.B.  The meta index only calls it; the
lookup algorithm is parametric in it. -/
structure Env where
  evaluate : VData → RelOp → VData → Bool

/-- The two kinds of meta extractors. -/
inductive MetaKind where
  | type
  | field
deriving DecidableEq, Repr

/-- The embedding of a predicate operand: a literal data value or one of
the extractor alternatives (section 3, Expression). -/
inductive Operand where
  | dat (d : VData)
  | meta (kind : MetaKind)
  | fieldEx (field : String)
  | typeEx (type : VType)
  | dataEx

/-- The embedding of vast::expression: nil (caf::none_t), conjunction,
disjunction, negation and predicate. -/
inductive Expression where
  | nil
  | conjunction (xs : List Expression)
  | disjunction (xs : List Expression)
  | negation (e : Expression)
  | predicate (lhs : Operand) (op : RelOp) (rhs : Operand)

/-- The error taxonomy of section 7.  Only invalidExpression is ever
produced by the embedded lookup; the other conditions are absorbed into
over approximate results. -/
inductive LookupError where
  | invalidExpression
  | unsupportedPredicate
  | typeMismatchedPredicate
deriving DecidableEq, Repr

/-- Modelled from the spec: detail::ends_with(str, sfx) tests whether str
ends with sfx (the fully qualified name suffix matching of section 4.F),
via the character sequences of the two strings. -/
def strEndsWith (s sfx : String) : Bool :=
  sfx.data.isSuffixOf s.data

/-- The embedding of std::sort on a vector of partition ids: sort
ascending. -/
def sortNat (l : List Nat) : List Nat :=
  List.insertionSort (· ≤ ·) l

/-- Insertion into an ascending duplicate free list, keeping it ascending
and duplicate free. -/
def insertAsc (x : Nat) : List Nat → List Nat
  | [] => [x]
  | y :: ys =>
    if x < y then x :: y :: ys
    else if x = y then y :: ys
    else y :: insertAsc x ys

/-- Modelled from the spec: detail::inplace_unify, the in place sorted
union of two sorted duplicate free id vectors (section 4.F): on its
contract domain it returns the ascending duplicate free union of the two
vectors. -/
def inplaceUnify (xs ys : List Nat) : List Nat :=
  xs.foldr insertAsc ys

/-- Modelled from the spec: detail::inplace_intersect, the in place sorted
intersection of two sorted duplicate free id vectors (section 4.F): on its
contract domain it returns the ascending duplicate free intersection of
the two vectors. -/
def inplaceIntersect (xs ys : List Nat) : List Nat :=
  xs.filter (fun x => ys.contains x)

/-- The embedding of the memoized all_partitions lambda: every key of the
synopses map, sorted.  Memoization within one lookup call is pure and
hence dropped. -/
def allPartitions (s : MetaIndexState) : List Nat :=
  sortNat (s.synopses.map Prod.fst)

/-- One consultation of a synopsis: the partition is accepted unless the
synopsis answers some false. -/
def consultAccepts (syn : Synopsis) (op : RelOp) (rhs : VData) : Bool :=
  match syn op rhs with
  | some false => false
  | _ => true

/-- The embedding of part_syn.type_synopses_.find(t): Option.none when the
key is absent, otherwise the stored optional synopsis. -/
def typeSynopsisFor (part_syn : PartitionSynopsis) (t : VType) :
    Option (Option Synopsis) :=
  (part_syn.type_synopses_.find? (fun p => VType.fullEq p.1 t)).map Prod.snd

/-- The per field acceptance test of the search lambda: consult the field
synopsis if present; otherwise consult the type synopsis stored under the
field type stripped of attributes, if present; otherwise accept
unconditionally. -/
def fieldAccepted (part_syn : PartitionSynopsis) (op : RelOp) (rhs : VData)
    (field : QualifiedField) (syn : Option Synopsis) : Bool :=
  match syn with
  | some s => consultAccepts s op rhs
  | Option.none =>
    match typeSynopsisFor part_syn (stripAttributes field.type) with
    | some (some ts) => consultAccepts ts op rhs
    | _ => true

/-- The partition level outcome of the search lambda: the partition is
selected when some field matches and is accepted (the source breaks out of
the field loop at the first accepted matching field). -/
def partitionAccepted (op : RelOp) (rhs : VData) (mp : QualifiedField → Bool)
    (part_syn : PartitionSynopsis) : Bool :=
  part_syn.field_synopses_.any (fun fs => mp fs.1 && fieldAccepted part_syn op rhs fs.1 fs.2)

/-- The embedding of the search lambda of meta_index_state::lookup: the
ids of all partitions selected by the match predicate, sorted. -/
def searchIds (s : MetaIndexState) (op : RelOp) (rhs : VData)
    (mp : QualifiedField → Bool) : List Nat :=
  sortNat ((s.synopses.filter (fun p => partitionAccepted op rhs mp p.2)).map Prod.fst)

/-- The match predicate of the type extractor case: for a none typed query
the source matches by display name, otherwise by structural equality with
the additional requirement that the field type has no display name.  The
source asserts that a none typed query carries a nonempty name; the
embedding keeps the release behavior of matching by name regardless. -/
def typeDispatchMatch (t : VType) (field : QualifiedField) : Bool :=
  match t.base with
  | .tnone => field.type.name == t.name
  | _ => VType.structEq field.type t && field.type.name == ""

/-- The type extractor case of the predicate dispatch, including the
timestamp compatibility union. -/
def lookupTypeEx (s : MetaIndexState) (t : VType) (op : RelOp) (rhs : VData) : List Nat :=
  let result := searchIds s op rhs (typeDispatchMatch t)
  if t.name == "timestamp" then
    inplaceUnify result (searchIds s op rhs (fun field => hasAttribute field.type "timestamp"))
  else
    result

/-- The meta extractor case of kind type: a partition is selected when
some field layout name, wrapped as string data, satisfies the evaluator;
the result is sorted. -/
def lookupMetaType (env : Env) (s : MetaIndexState) (op : RelOp) (d : VData) : List Nat :=
  sortNat ((s.synopses.filter (fun p =>
    p.2.field_synopses_.any (fun fs => env.evaluate (VData.str fs.1.layout_name) op d))).map Prod.fst)

/-- The meta extractor case of kind field: a non string right hand side
yields the empty result (after a warning); for a string the partition is
selected exactly when the non negativity of the operator equals the
existence of a field whose fully qualified name ends with the string. -/
def lookupMetaField (s : MetaIndexState) (op : RelOp) (d : VData) : List Nat :=
  match d with
  | .str s0 =>
    sortNat ((s.synopses.filter (fun p =>
      (!isNegated op) == p.2.field_synopses_.any (fun fs => strEndsWith fs.1.fqn s0))).map Prod.fst)
  | _ => []

/-- The predicate case of meta_index_state::lookup: dispatch on the pair
of operands; unhandled shapes widen to all partitions. -/
def lookupPredicate (env : Env) (s : MetaIndexState) (lhs : Operand) (op : RelOp)
    (rhs : Operand) : List Nat :=
  match lhs, rhs with
  | .meta .type, .dat d => lookupMetaType env s op d
  | .meta .field, .dat d => lookupMetaField s op d
  | .fieldEx name, .dat d => searchIds s op d (fun field => strEndsWith field.fqn name)
  | .typeEx t, .dat d => lookupTypeEx s t op d
  | _, _ => allPartitions s

mutual
/-- The embedding of meta_index_state::lookup.  Assertion failures (a nil
expression, reasserted on every recursive entry, and an empty conjunction)
are modelled as an invalid expression error; all remaining paths return a
result list. -/
def lookup (env : Env) (s : MetaIndexState) : Expression → Except LookupError (List Nat)
  | .nil => .error .invalidExpression
  | .negation _ => .ok (allPartitions s)
  | .predicate lhs op rhs => .ok (lookupPredicate env s lhs op rhs)
  | .conjunction [] => .error .invalidExpression
  | .conjunction (y :: ys) =>
    match lookup env s y with
    | .error err => .error err
    | .ok r => if r.isEmpty then .ok r else conjFold env s r ys
  | .disjunction xs => disjFold env s [] xs
termination_by e => sizeOf e

/-- The loop of the conjunction case: intersect child results into the
accumulator, short circuiting on an empty child result. -/
def conjFold (env : Env) (s : MetaIndexState) (acc : List Nat) :
    List Expression → Except LookupError (List Nat)
  | [] => .ok acc
  | y :: ys =>
    match lookup env s y with
    | .error err => .error err
    | .ok xs =>
      if xs.isEmpty then .ok xs
      else conjFold env s (inplaceIntersect acc xs) ys
termination_by ys => sizeOf ys

/-- The loop of the disjunction case: unify child results into the
accumulator, short circuiting when a child result already covers every
partition. -/
def disjFold (env : Env) (s : MetaIndexState) (acc : List Nat) :
    List Expression → Except LookupError (List Nat)
  | [] => .ok acc
  | y :: ys =>
    match lookup env s y with
    | .error err => .error err
    | .ok xs =>
      if xs.length == s.synopses.length then .ok xs
      else disjFold env s (inplaceUnify acc xs) ys
termination_by ys => sizeOf ys
end

/-! Helper lemmas about sorting and the set operations. -/

theorem mem_sortNat {a : Nat} {l : List Nat} : a ∈ sortNat l ↔ a ∈ l :=
  (List.perm_insertionSort _ l).mem_iff

theorem sortNat_sorted_le (l : List Nat) : (sortNat l).Sorted (· ≤ ·) :=
  List.sorted_insertionSort _ l

theorem sortNat_nodup {l : List Nat} (h : l.Nodup) : (sortNat l).Nodup :=
  ((List.perm_insertionSort _ l).nodup_iff).mpr h

theorem sortNat_sorted_lt {l : List Nat} (h : l.Nodup) : (sortNat l).Sorted (· < ·) :=
  (sortNat_sorted_le l).lt_of_le (sortNat_nodup h)

theorem sortedLt_ext {xs ys : List Nat} (hx : xs.Sorted (· < ·)) (hy : ys.Sorted (· < ·))
    (h : ∀ a, a ∈ xs ↔ a ∈ ys) : xs = ys := by
  have : IsAntisymm Nat (· < ·) := ⟨fun a b h1 h2 => absurd h1 (Nat.lt_asymm h2)⟩
  exact List.eq_of_perm_of_sorted ((List.perm_ext_iff_of_nodup hx.nodup hy.nodup).mpr h) hx hy

theorem mem_insertAsc {a x : Nat} {l : List Nat} : a ∈ insertAsc x l ↔ a = x ∨ a ∈ l := by
  induction l with
  | nil => simp [insertAsc]
  | cons y ys ih =>
    simp only [insertAsc]
    split
    · simp [List.mem_cons]
    · split
      · rename_i hxy
        subst hxy
        simp [List.mem_cons]
      · simp only [List.mem_cons, ih]
        tauto

theorem sorted_insertAsc {x : Nat} {l : List Nat} (h : l.Sorted (· < ·)) :
    (insertAsc x l).Sorted (· < ·) := by
  induction l with
  | nil => simp [insertAsc]
  | cons y ys ih =>
    rw [List.sorted_cons] at h
    simp only [insertAsc]
    split
    · rename_i hxy
      refine List.sorted_cons.mpr ⟨?_, List.sorted_cons.mpr h⟩
      intro b hb
      rcases List.mem_cons.mp hb with rfl | hb
      · exact hxy
      · exact lt_trans hxy (h.1 b hb)
    · split
      · exact List.sorted_cons.mpr h
      · rename_i h1 h2
        refine List.sorted_cons.mpr ⟨?_, ih h.2⟩
        intro b hb
        rcases mem_insertAsc.mp hb with rfl | hb
        · omega
        · exact h.1 b hb

theorem inplaceUnify_cons {x : Nat} {xs ys : List Nat} :
    inplaceUnify (x :: xs) ys = insertAsc x (inplaceUnify xs ys) := rfl

theorem mem_inplaceUnify {a : Nat} {xs ys : List Nat} :
    a ∈ inplaceUnify xs ys ↔ a ∈ xs ∨ a ∈ ys := by
  induction xs with
  | nil => simp [inplaceUnify]
  | cons x xs ih =>
    rw [inplaceUnify_cons, mem_insertAsc, ih]
    simp [List.mem_cons]
    tauto

theorem sorted_inplaceUnify {xs ys : List Nat} (hy : ys.Sorted (· < ·)) :
    (inplaceUnify xs ys).Sorted (· < ·) := by
  induction xs with
  | nil => exact hy
  | cons x xs ih => exact sorted_insertAsc ih

theorem mem_inplaceIntersect {a : Nat} {xs ys : List Nat} :
    a ∈ inplaceIntersect xs ys ↔ a ∈ xs ∧ a ∈ ys := by
  simp [inplaceIntersect, List.mem_filter, List.elem_iff]

theorem inplaceIntersect_sublist (xs ys : List Nat) :
    (inplaceIntersect xs ys).Sublist xs :=
  List.filter_sublist xs

theorem sorted_inplaceIntersect {xs ys : List Nat} (hx : xs.Sorted (· < ·)) :
    (inplaceIntersect xs ys).Sorted (· < ·) :=
  hx.sublist (inplaceIntersect_sublist xs ys)

/-! Helper lemmas about the filter, map and sort shape shared by the leaf
cases of the lookup algorithm. -/

theorem mem_sortFilterMap {pid : Nat} {l : List (Nat × PartitionSynopsis)}
    {P : Nat × PartitionSynopsis → Bool} :
    pid ∈ sortNat ((l.filter P).map Prod.fst) ↔ ∃ ps, (pid, ps) ∈ l ∧ P (pid, ps) := by
  rw [mem_sortNat]
  constructor
  · intro h
    rcases List.mem_map.mp h with ⟨⟨a, b⟩, hab, hfst⟩
    rcases List.mem_filter.mp hab with ⟨hmem, hP⟩
    cases hfst
    exact ⟨b, hmem, hP⟩
  · rintro ⟨ps, hmem, hP⟩
    exact List.mem_map.mpr ⟨(pid, ps), List.mem_filter.mpr ⟨hmem, hP⟩, rfl⟩

theorem sorted_sortFilterMap {l : List (Nat × PartitionSynopsis)}
    {P : Nat × PartitionSynopsis → Bool} (h : (l.map Prod.fst).Nodup) :
    (sortNat ((l.filter P).map Prod.fst)).Sorted (· < ·) :=
  sortNat_sorted_lt (h.sublist ((List.filter_sublist l).map Prod.fst))

theorem subset_sortFilterMap {l : List (Nat × PartitionSynopsis)}
    {P : Nat × PartitionSynopsis → Bool} {pid : Nat}
    (h : pid ∈ sortNat ((l.filter P).map Prod.fst)) : pid ∈ l.map Prod.fst := by
  rcases mem_sortFilterMap.mp h with ⟨ps, hmem, _⟩
  exact List.mem_map.mpr ⟨(pid, ps), hmem, rfl⟩

theorem assoc_unique {l : List (Nat × PartitionSynopsis)} (h : (l.map Prod.fst).Nodup)
    {pid : Nat} {ps1 ps2 : PartitionSynopsis}
    (h1 : (pid, ps1) ∈ l) (h2 : (pid, ps2) ∈ l) : ps1 = ps2 := by
  induction l with
  | nil => cases h1
  | cons a l ih =>
    rw [List.map_cons, List.nodup_cons] at h
    rcases List.mem_cons.mp h1 with rfl | h1m
    · rcases List.mem_cons.mp h2 with h2e | h2m
      · cases h2e; rfl
      · exact absurd (List.mem_map.mpr ⟨(pid, ps2), h2m, rfl⟩) h.1
    · rcases List.mem_cons.mp h2 with rfl | h2m
      · exact absurd (List.mem_map.mpr ⟨(pid, ps1), h1m, rfl⟩) h.1
      · exact ih h.2 h1m h2m

/-! Leaf level characterizations of the lookup algorithm. -/

theorem mem_allPartitions {s : MetaIndexState} {pid : Nat} :
    pid ∈ allPartitions s ↔ pid ∈ s.synopses.map Prod.fst :=
  mem_sortNat

theorem sorted_allPartitions {s : MetaIndexState} (h : s.keysNodup) :
    (allPartitions s).Sorted (· < ·) :=
  sortNat_sorted_lt h

theorem mem_searchIds {s : MetaIndexState} {op : RelOp} {rhs : VData}
    {mp : QualifiedField → Bool} {pid : Nat} :
    pid ∈ searchIds s op rhs mp ↔
      ∃ ps, (pid, ps) ∈ s.synopses ∧ partitionAccepted op rhs mp ps :=
  mem_sortFilterMap

theorem sorted_searchIds {s : MetaIndexState} {op : RelOp} {rhs : VData}
    {mp : QualifiedField → Bool} (h : s.keysNodup) :
    (searchIds s op rhs mp).Sorted (· < ·) :=
  sorted_sortFilterMap h

theorem subset_searchIds {s : MetaIndexState} {op : RelOp} {rhs : VData}
    {mp : QualifiedField → Bool} {pid : Nat} (h : pid ∈ searchIds s op rhs mp) :
    pid ∈ s.synopses.map Prod.fst :=
  subset_sortFilterMap h

/-- The effective match predicate of the type extractor case: the dispatch
predicate of the source, together with the timestamp compatibility
predicate when the query type is named timestamp. -/
def typeExtractorMatch (t : VType) (field : QualifiedField) : Bool :=
  typeDispatchMatch t field || (t.name == "timestamp" && hasAttribute field.type "timestamp")

theorem partitionAccepted_or {op : RelOp} {rhs : VData} {m1 m2 : QualifiedField → Bool}
    {ps : PartitionSynopsis} :
    partitionAccepted op rhs (fun f => m1 f || m2 f) ps =
      (partitionAccepted op rhs m1 ps || partitionAccepted op rhs m2 ps) := by
  rw [Bool.eq_iff_iff]
  unfold partitionAccepted
  simp only [List.any_eq_true, Bool.or_eq_true, Bool.and_eq_true]
  constructor
  · rintro ⟨x, hx, hm | hm, ha⟩
    · exact Or.inl ⟨x, hx, hm, ha⟩
    · exact Or.inr ⟨x, hx, hm, ha⟩
  · rintro (⟨x, hx, hm, ha⟩ | ⟨x, hx, hm, ha⟩)
    · exact ⟨x, hx, Or.inl hm, ha⟩
    · exact ⟨x, hx, Or.inr hm, ha⟩

theorem mem_lookupTypeEx {s : MetaIndexState} {t : VType} {op : RelOp} {rhs : VData}
    {pid : Nat} :
    pid ∈ lookupTypeEx s t op rhs ↔
      ∃ ps, (pid, ps) ∈ s.synopses ∧ partitionAccepted op rhs (typeExtractorMatch t) ps := by
  by_cases hts : (t.name == "timestamp") = true
  · have hpred : typeExtractorMatch t =
        fun f => typeDispatchMatch t f || hasAttribute f.type "timestamp" := by
      funext f
      simp [typeExtractorMatch, hts]
    simp only [lookupTypeEx, hts, if_true, mem_inplaceUnify, mem_searchIds, hpred]
    constructor
    · rintro (⟨ps, hmem, hacc⟩ | ⟨ps, hmem, hacc⟩)
      · refine ⟨ps, hmem, ?_⟩
        rw [partitionAccepted_or]
        simp [hacc]
      · refine ⟨ps, hmem, ?_⟩
        rw [partitionAccepted_or]
        simp [hacc]
    · rintro ⟨ps, hmem, hacc⟩
      rw [partitionAccepted_or] at hacc
      simp only [Bool.or_eq_true] at hacc
      rcases hacc with hd | ha
      · exact Or.inl ⟨ps, hmem, hd⟩
      · exact Or.inr ⟨ps, hmem, ha⟩
  · have hb : (t.name == "timestamp") = false := by
      revert hts
      cases t.name == "timestamp" <;> simp
    have hpred : typeExtractorMatch t = typeDispatchMatch t := by
      funext f
      simp [typeExtractorMatch, hb]
    simp only [lookupTypeEx, hb, Bool.false_eq_true, if_false, mem_searchIds, hpred]

theorem sorted_lookupTypeEx {s : MetaIndexState} {t : VType} {op : RelOp} {rhs : VData}
    (h : s.keysNodup) : (lookupTypeEx s t op rhs).Sorted (· < ·) := by
  unfold lookupTypeEx
  split
  · exact sorted_inplaceUnify (sorted_searchIds h)
  · exact sorted_searchIds h

theorem subset_lookupTypeEx {s : MetaIndexState} {t : VType} {op : RelOp} {rhs : VData}
    {pid : Nat} (h : pid ∈ lookupTypeEx s t op rhs) : pid ∈ s.synopses.map Prod.fst := by
  rcases mem_lookupTypeEx.mp h with ⟨ps, hmem, _⟩
  exact List.mem_map.mpr ⟨(pid, ps), hmem, rfl⟩

theorem mem_lookupMetaType {env : Env} {s : MetaIndexState} {op : RelOp} {d : VData}
    {pid : Nat} :
    pid ∈ lookupMetaType env s op d ↔
      ∃ ps, (pid, ps) ∈ s.synopses ∧
        ps.field_synopses_.any (fun fs => env.evaluate (VData.str fs.1.layout_name) op d) :=
  mem_sortFilterMap

theorem mem_lookupMetaField_str {s : MetaIndexState} {op : RelOp} {s0 : String} {pid : Nat} :
    pid ∈ lookupMetaField s op (.str s0) ↔
      ∃ ps, (pid, ps) ∈ s.synopses ∧
        ((!isNegated op) == ps.field_synopses_.any (fun fs => strEndsWith fs.1.fqn s0)) :=
  mem_sortFilterMap

theorem lookupMetaField_not_str {s : MetaIndexState} {op : RelOp} {d : VData}
    (h : d.getStr = Option.none) : lookupMetaField s op d = [] := by
  cases d <;> simp_all [VData.getStr, lookupMetaField]

theorem sorted_lookupPredicate {env : Env} {s : MetaIndexState} {lhs : Operand} {op : RelOp}
    {rhs : Operand} (h : s.keysNodup) :
    (lookupPredicate env s lhs op rhs).Sorted (· < ·) := by
  unfold lookupPredicate
  split
  · exact sorted_sortFilterMap h
  · rename_i d
    unfold lookupMetaField
    split
    · exact sorted_sortFilterMap h
    · exact List.sorted_nil
  · exact sorted_searchIds h
  · exact sorted_lookupTypeEx h
  · exact sorted_allPartitions h

theorem subset_lookupPredicate {env : Env} {s : MetaIndexState} {lhs : Operand} {op : RelOp}
    {rhs : Operand} {pid : Nat} (h : pid ∈ lookupPredicate env s lhs op rhs) :
    pid ∈ s.synopses.map Prod.fst := by
  unfold lookupPredicate at h
  split at h
  · exact subset_sortFilterMap h
  · rename_i d
    unfold lookupMetaField at h
    split at h
    · exact subset_sortFilterMap h
    · cases h
  · exact subset_searchIds h
  · exact subset_lookupTypeEx h
  · exact mem_allPartitions.mp h

/-! Invariant lemmas of the recursive evaluator. -/

theorem conjFold_sorted {env : Env} {s : MetaIndexState} :
    ∀ (ys : List Expression) (acc r : List Nat), acc.Sorted (· < ·) →
      conjFold env s acc ys = .ok r → r.Sorted (· < ·) := by
  intro ys
  induction ys with
  | nil =>
    intro acc r hacc h
    simp only [conjFold] at h
    cases h
    exact hacc
  | cons y ys ih =>
    intro acc r hacc h
    simp only [conjFold] at h
    split at h
    · exact Except.noConfusion h
    · split at h
      · cases h
        rename_i hemp
        rw [List.isEmpty_iff] at hemp
        rw [hemp]
        exact List.sorted_nil
      · exact ih _ r (sorted_inplaceIntersect hacc) h

theorem disjFold_sorted {env : Env} {s : MetaIndexState} :
    ∀ (ys : List Expression) (acc r : List Nat), acc.Sorted (· < ·) →
      (∀ y ∈ ys, ∀ xs, lookup env s y = .ok xs → xs.Sorted (· < ·)) →
      disjFold env s acc ys = .ok r → r.Sorted (· < ·) := by
  intro ys
  induction ys with
  | nil =>
    intro acc r hacc _ h
    simp only [disjFold] at h
    cases h
    exact hacc
  | cons y ys ih =>
    intro acc r hacc H h
    simp only [disjFold] at h
    split at h
    · exact Except.noConfusion h
    · rename_i xs heq
      split at h
      · cases h
        exact H y (List.mem_cons_self y ys) _ heq
      · exact ih _ r (sorted_inplaceUnify (H y (List.mem_cons_self y ys) _ heq))
          (fun z hz => H z (List.mem_cons_of_mem y hz)) h

theorem conjFold_subset {env : Env} {s : MetaIndexState} {K : List Nat} :
    ∀ (ys : List Expression) (acc r : List Nat), (∀ a ∈ acc, a ∈ K) →
      conjFold env s acc ys = .ok r → ∀ a ∈ r, a ∈ K := by
  intro ys
  induction ys with
  | nil =>
    intro acc r hacc h
    simp only [conjFold] at h
    cases h
    exact hacc
  | cons y ys ih =>
    intro acc r hacc h
    simp only [conjFold] at h
    split at h
    · exact Except.noConfusion h
    · split at h
      · cases h
        rename_i hemp
        rw [List.isEmpty_iff] at hemp
        rw [hemp]
        intro a ha
        cases ha
      · refine ih _ r ?_ h
        intro a ha
        exact hacc a (mem_inplaceIntersect.mp ha).1

theorem disjFold_subset {env : Env} {s : MetaIndexState} {K : List Nat} :
    ∀ (ys : List Expression) (acc r : List Nat), (∀ a ∈ acc, a ∈ K) →
      (∀ y ∈ ys, ∀ xs, lookup env s y = .ok xs → ∀ a ∈ xs, a ∈ K) →
      disjFold env s acc ys = .ok r → ∀ a ∈ r, a ∈ K := by
  intro ys
  induction ys with
  | nil =>
    intro acc r hacc _ h
    simp only [disjFold] at h
    cases h
    exact hacc
  | cons y ys ih =>
    intro acc r hacc H h
    simp only [disjFold] at h
    split at h
    · exact Except.noConfusion h
    · rename_i xs heq
      split at h
      · cases h
        exact H y (List.mem_cons_self y ys) _ heq
      · refine ih _ r ?_ (fun z hz => H z (List.mem_cons_of_mem y hz)) h
        intro a ha
        rcases mem_inplaceUnify.mp ha with ha | ha
        · exact hacc a ha
        · exact H y (List.mem_cons_self y ys) _ heq a ha

theorem conjFold_error {env : Env} {s : MetaIndexState} :
    ∀ (ys : List Expression) (acc : List Nat) (err : LookupError),
      conjFold env s acc ys = .error err → ∃ y ∈ ys, lookup env s y = .error err := by
  intro ys
  induction ys with
  | nil =>
    intro acc err h
    simp only [conjFold] at h
    exact Except.noConfusion h
  | cons y ys ih =>
    intro acc err h
    simp only [conjFold] at h
    split at h
    · rename_i e heq
      cases h
      exact ⟨y, List.mem_cons_self y ys, heq⟩
    · split at h
      · exact Except.noConfusion h
      · rcases ih _ err h with ⟨z, hz, hze⟩
        exact ⟨z, List.mem_cons_of_mem y hz, hze⟩

theorem disjFold_error {env : Env} {s : MetaIndexState} :
    ∀ (ys : List Expression) (acc : List Nat) (err : LookupError),
      disjFold env s acc ys = .error err → ∃ y ∈ ys, lookup env s y = .error err := by
  intro ys
  induction ys with
  | nil =>
    intro acc err h
    simp only [disjFold] at h
    exact Except.noConfusion h
  | cons y ys ih =>
    intro acc err h
    simp only [disjFold] at h
    split at h
    · rename_i e heq
      cases h
      exact ⟨y, List.mem_cons_self y ys, heq⟩
    · split at h
      · exact Except.noConfusion h
      · rcases ih _ err h with ⟨z, hz, hze⟩
        exact ⟨z, List.mem_cons_of_mem y hz, hze⟩

theorem lookup_ok_sorted {env : Env} {s : MetaIndexState} (hk : s.keysNodup) :
    ∀ (e : Expression) (r : List Nat), lookup env s e = .ok r → r.Sorted (· < ·) := by
  have key : ∀ (n : Nat) (e : Expression), sizeOf e = n →
      ∀ r, lookup env s e = .ok r → r.Sorted (· < ·) := by
    intro n
    induction n using Nat.strong_induction_on with
    | _ n ih =>
    intro e hn
    subst hn
    cases e with
    | nil =>
      intro r h
      simp only [lookup] at h
      exact Except.noConfusion h
    | negation e1 =>
      intro r h
      simp only [lookup] at h
      cases h
      exact sorted_allPartitions hk
    | predicate lhs op rhs =>
      intro r h
      simp only [lookup] at h
      cases h
      exact sorted_lookupPredicate hk
    | conjunction xs =>
      cases xs with
      | nil =>
        intro r h
        simp only [lookup] at h
        exact Except.noConfusion h
      | cons y ys =>
        intro r h
        simp only [lookup] at h
        split at h
        · exact Except.noConfusion h
        · rename_i r0 heq
          split at h
          · cases h
            rename_i hemp
            rw [List.isEmpty_iff] at hemp
            rw [hemp]
            exact List.sorted_nil
          · have hy : sizeOf y < sizeOf (Expression.conjunction (y :: ys)) := by
              simp
              omega
            exact conjFold_sorted ys r0 r (ih (sizeOf y) hy y rfl r0 heq) h
    | disjunction xs =>
      intro r h
      simp only [lookup] at h
      refine disjFold_sorted xs [] r List.sorted_nil ?_ h
      intro y hy xs0 h0
      have hy2 : sizeOf y < sizeOf (Expression.disjunction xs) := by
        have := List.sizeOf_lt_of_mem hy
        simp
        omega
      exact ih (sizeOf y) hy2 y rfl xs0 h0
  intro e r h
  exact key (sizeOf e) e rfl r h

theorem lookup_ok_subset {env : Env} {s : MetaIndexState} :
    ∀ (e : Expression) (r : List Nat), lookup env s e = .ok r →
      ∀ a ∈ r, a ∈ s.synopses.map Prod.fst := by
  have key : ∀ (n : Nat) (e : Expression), sizeOf e = n →
      ∀ r, lookup env s e = .ok r → ∀ a ∈ r, a ∈ s.synopses.map Prod.fst := by
    intro n
    induction n using Nat.strong_induction_on with
    | _ n ih =>
    intro e hn
    subst hn
    cases e with
    | nil =>
      intro r h
      simp only [lookup] at h
      exact Except.noConfusion h
    | negation e1 =>
      intro r h
      simp only [lookup] at h
      cases h
      intro a ha
      exact mem_allPartitions.mp ha
    | predicate lhs op rhs =>
      intro r h
      simp only [lookup] at h
      cases h
      intro a ha
      exact subset_lookupPredicate ha
    | conjunction xs =>
      cases xs with
      | nil =>
        intro r h
        simp only [lookup] at h
        exact Except.noConfusion h
      | cons y ys =>
        intro r h
        simp only [lookup] at h
        split at h
        · exact Except.noConfusion h
        · rename_i r0 heq
          split at h
          · cases h
            rename_i hemp
            rw [List.isEmpty_iff] at hemp
            rw [hemp]
            intro a ha
            cases ha
          · have hy : sizeOf y < sizeOf (Expression.conjunction (y :: ys)) := by
              simp
              omega
            exact conjFold_subset ys r0 r (ih (sizeOf y) hy y rfl r0 heq) h
    | disjunction xs =>
      intro r h
      simp only [lookup] at h
      refine disjFold_subset xs [] r (fun a ha => absurd ha (List.not_mem_nil a)) ?_ h
      intro y hy xs0 h0
      have hy2 : sizeOf y < sizeOf (Expression.disjunction xs) := by
        have := List.sizeOf_lt_of_mem hy
        simp
        omega
      exact ih (sizeOf y) hy2 y rfl xs0 h0
  intro e r h
  exact key (sizeOf e) e rfl r h

theorem lookup_error_invalid {env : Env} {s : MetaIndexState} :
    ∀ (e : Expression) (err : LookupError), lookup env s e = .error err →
      err = .invalidExpression := by
  have key : ∀ (n : Nat) (e : Expression), sizeOf e = n →
      ∀ err, lookup env s e = .error err → err = .invalidExpression := by
    intro n
    induction n using Nat.strong_induction_on with
    | _ n ih =>
    intro e hn
    subst hn
    cases e with
    | nil =>
      intro err h
      simp only [lookup] at h
      cases h
      rfl
    | negation e1 =>
      intro err h
      simp only [lookup] at h
      exact Except.noConfusion h
    | predicate lhs op rhs =>
      intro err h
      simp only [lookup] at h
      exact Except.noConfusion h
    | conjunction xs =>
      cases xs with
      | nil =>
        intro err h
        simp only [lookup] at h
        cases h
        rfl
      | cons y ys =>
        intro err h
        simp only [lookup] at h
        split at h
        · rename_i e0 heq
          cases h
          have hy : sizeOf y < sizeOf (Expression.conjunction (y :: ys)) := by
            simp
            omega
          exact ih (sizeOf y) hy y rfl err heq
        · split at h
          · exact Except.noConfusion h
          · rcases conjFold_error ys _ err h with ⟨z, hz, hze⟩
            have hz2 : sizeOf z < sizeOf (Expression.conjunction (y :: ys)) := by
              have := List.sizeOf_lt_of_mem hz
              simp
              omega
            exact ih (sizeOf z) hz2 z rfl err hze
    | disjunction xs =>
      intro err h
      simp only [lookup] at h
      rcases disjFold_error xs _ err h with ⟨z, hz, hze⟩
      have hz2 : sizeOf z < sizeOf (Expression.disjunction xs) := by
        have := List.sizeOf_lt_of_mem hz
        simp
        omega
      exact ih (sizeOf z) hz2 z rfl err hze
  intro e err h
  exact key (sizeOf e) e rfl err h

/-! Bridge lemmas between membership in leaf results and the per partition
acceptance tests, for states whose synopses map has unique keys. -/

theorem partitionAccepted_iff_exists {op : RelOp} {rhs : VData} {mp : QualifiedField → Bool}
    {ps : PartitionSynopsis} :
    partitionAccepted op rhs mp ps = true ↔
      ∃ fs ∈ ps.field_synopses_, mp fs.1 = true ∧ fieldAccepted ps op rhs fs.1 fs.2 = true := by
  unfold partitionAccepted
  simp only [List.any_eq_true, Bool.and_eq_true]

theorem mem_searchIds_unique {s : MetaIndexState} {op : RelOp} {rhs : VData}
    {mp : QualifiedField → Bool} {pid : Nat} {ps : PartitionSynopsis}
    (hk : s.keysNodup) (hmem : (pid, ps) ∈ s.synopses) :
    pid ∈ searchIds s op rhs mp ↔ partitionAccepted op rhs mp ps = true := by
  rw [mem_searchIds]
  constructor
  · rintro ⟨ps2, hm2, hacc⟩
    rwa [assoc_unique hk hm2 hmem] at hacc
  · intro h
    exact ⟨ps, hmem, h⟩

theorem mem_lookupTypeEx_unique {s : MetaIndexState} {t : VType} {op : RelOp} {rhs : VData}
    {pid : Nat} {ps : PartitionSynopsis}
    (hk : s.keysNodup) (hmem : (pid, ps) ∈ s.synopses) :
    pid ∈ lookupTypeEx s t op rhs ↔
      partitionAccepted op rhs (typeExtractorMatch t) ps = true := by
  rw [mem_lookupTypeEx]
  constructor
  · rintro ⟨ps2, hm2, hacc⟩
    rwa [assoc_unique hk hm2 hmem] at hacc
  · intro h
    exact ⟨ps, hmem, h⟩

theorem mem_lookupMetaType_unique {env : Env} {s : MetaIndexState} {op : RelOp} {d : VData}
    {pid : Nat} {ps : PartitionSynopsis}
    (hk : s.keysNodup) (hmem : (pid, ps) ∈ s.synopses) :
    pid ∈ lookupMetaType env s op d ↔
      ps.field_synopses_.any (fun fs => env.evaluate (VData.str fs.1.layout_name) op d) := by
  rw [mem_lookupMetaType]
  constructor
  · rintro ⟨ps2, hm2, hacc⟩
    rwa [assoc_unique hk hm2 hmem] at hacc
  · intro h
    exact ⟨ps, hmem, h⟩

theorem mem_lookupMetaField_unique {s : MetaIndexState} {op : RelOp} {s0 : String}
    {pid : Nat} {ps : PartitionSynopsis}
    (hk : s.keysNodup) (hmem : (pid, ps) ∈ s.synopses) :
    pid ∈ lookupMetaField s op (.str s0) ↔
      ((!isNegated op) == ps.field_synopses_.any (fun fs => strEndsWith fs.1.fqn s0)) := by
  rw [mem_lookupMetaField_str]
  constructor
  · rintro ⟨ps2, hm2, hacc⟩
    rwa [assoc_unique hk hm2 hmem] at hacc
  · intro h
    exact ⟨ps, hmem, h⟩

theorem full_result_covers {s : MetaIndexState} {r : List Nat}
    (hsub : ∀ a ∈ r, a ∈ s.synopses.map Prod.fst) (hnd : r.Nodup)
    (hlen : r.length = s.synopses.length) :
    ∀ a ∈ s.synopses.map Prod.fst, a ∈ r := by
  have hsp : r.Subperm (s.synopses.map Prod.fst) :=
    List.subperm_of_subset hnd (fun a ha => hsub a ha)
  have hperm : r.Perm (s.synopses.map Prod.fst) :=
    hsp.perm_of_length_le (by rw [List.length_map]; omega)
  intro a ha
  exact hperm.mem_iff.mpr ha

theorem inplaceUnify_nil_left {ys : List Nat} : inplaceUnify [] ys = ys := rfl

theorem inplaceUnify_eq_left {r1 r2 : List Nat} (h1 : r1.Sorted (· < ·))
    (h2 : r2.Sorted (· < ·)) (hsub : ∀ a ∈ r2, a ∈ r1) : inplaceUnify r1 r2 = r1 := by
  refine sortedLt_ext (sorted_inplaceUnify h2) h1 ?_
  intro a
  rw [mem_inplaceUnify]
  constructor
  · rintro (h | h)
    · exact h
    · exact hsub a h
  · exact Or.inl

theorem inplaceUnify_eq_right {r1 r2 : List Nat}
    (h2 : r2.Sorted (· < ·)) (hsub : ∀ a ∈ r1, a ∈ r2) : inplaceUnify r1 r2 = r2 := by
  refine sortedLt_ext (sorted_inplaceUnify h2) h2 ?_
  intro a
  rw [mem_inplaceUnify]
  constructor
  · rintro (h | h)
    · exact hsub a h
    · exact h
  · exact Or.inr

/-! Definitions naming the match predicates of the field selecting
extractors, used to state the claims. -/

/-- The operand shapes whose predicate case scans matching fields through
the search lambda: field extractors and type extractors. -/
def Operand.selectsFields : Operand → Bool
  | .fieldEx _ => true
  | .typeEx _ => true
  | _ => false

/-- The match predicate that the search lambda receives for a field
selecting operand: suffix matching of the fully qualified name for a field
extractor, and the effective type matching predicate for a type
extractor. -/
def effectiveMatch : Operand → QualifiedField → Bool
  | .fieldEx name, f => strEndsWith f.fqn name
  | .typeEx t, f => typeExtractorMatch t f
  | _, _ => false

/-- Whether a type base is the none alternative. -/
def BaseType.isNone : BaseType → Bool
  | .tnone => true
  | _ => false

/-- The matching predicate of the type extractor as worded by the
specification: dispatch on whether the query type has a display name. -/
def specTypeMatch (t : VType) (f : QualifiedField) : Bool :=
  if t.name == "" then VType.structEq f.type t && (f.type.name == "")
  else f.type.name == t.name

/-! A small concrete meta index used to instantiate the claim theorems. -/

/-- A concrete relational evaluator: string equality on string pairs. -/
def exEnv : Env :=
  ⟨fun l _ r =>
    match l, r with
    | .str a, .str b => a == b
    | _, _ => false⟩

/-- An unnamed address type. -/
def exAddrType : VType := .mk "" [] .taddress

/-- An unnamed string type. -/
def exStrType : VType := .mk "" [] .tstring

/-- A field of the conn layout. -/
def exField1 : QualifiedField := ⟨"conn", "conn.orig_h", exAddrType⟩

/-- A field of the dns layout. -/
def exField2 : QualifiedField := ⟨"dns", "dns.query", exStrType⟩

/-- A synopsis that always answers some true. -/
def exSynTrue : Synopsis := fun _ _ => some true

/-- A partition synopsis whose only field has no dedicated synopsis. -/
def exPs1 : PartitionSynopsis := ⟨[(exField1, Option.none)], []⟩

/-- A partition synopsis whose only field has an always accepting
synopsis. -/
def exPs2 : PartitionSynopsis := ⟨[(exField2, some exSynTrue)], []⟩

/-- A partition synopsis with no fields at all. -/
def exPs3 : PartitionSynopsis := ⟨[], []⟩

/-- A concrete meta index with three partitions. -/
def exState : MetaIndexState := ⟨[(0, exPs1), (1, exPs2), (2, exPs3)]⟩

/-- A field extractor predicate matching the dns.query field. -/
def eQuery : Expression := .predicate (.fieldEx "query") .equal (.dat (.str "x"))

/-- A field extractor predicate matching the conn.orig_h field. -/
def eOrig : Expression := .predicate (.fieldEx "orig_h") .equal (.dat (.str "x"))

/-! The claims. -/

/-- Claim C1: for every state with unique keys and every predicate whose
operand selects fields through a match predicate (field extractor or type
extractor), lookup includes a partition exactly when some field of that
partition matches the effective predicate and is accepted by consulting,
in priority order, the field synopsis if present, otherwise the type
synopsis stored under the field type stripped of attributes, otherwise
accepting unconditionally; an answer of some false rejects only that
field while the scan continues over the remaining fields. -/
theorem c1_search_acceptance (env : Env) (s : MetaIndexState) (hk : s.keysNodup)
    (pid : Nat) (ps : PartitionSynopsis) (hmem : (pid, ps) ∈ s.synopses)
    (lhs : Operand) (op : RelOp) (d : VData) (r : List Nat)
    (hsel : lhs.selectsFields = true)
    (hr : lookup env s (.predicate lhs op (.dat d)) = .ok r) :
    pid ∈ r ↔ ∃ fs ∈ ps.field_synopses_,
      effectiveMatch lhs fs.1 = true ∧ fieldAccepted ps op d fs.1 fs.2 = true := by
  simp only [lookup] at hr
  cases hr
  cases lhs with
  | fieldEx name =>
    simp only [lookupPredicate]
    rw [mem_searchIds_unique hk hmem, partitionAccepted_iff_exists]
    exact Iff.rfl
  | typeEx t =>
    simp only [lookupPredicate]
    rw [mem_lookupTypeEx_unique hk hmem, partitionAccepted_iff_exists]
    exact Iff.rfl
  | dat d2 => simp [Operand.selectsFields] at hsel
  | meta k => simp [Operand.selectsFields] at hsel
  | dataEx => simp [Operand.selectsFields] at hsel

/-- Witness for C1: in the concrete state, partition 1 is returned for the
field extractor query and its field justifies the acceptance. -/
theorem c1_search_acceptance_witness :
    (1 : Nat) ∈ [1] ↔ ∃ fs ∈ exPs2.field_synopses_,
      effectiveMatch (.fieldEx "query") fs.1 = true ∧
      fieldAccepted exPs2 .equal (.str "x") fs.1 fs.2 = true :=
  c1_search_acceptance exEnv exState (by decide) 1 exPs2
    (List.Mem.tail _ (List.Mem.head _)) (.fieldEx "query") .equal (.str "x") [1] rfl
    (by simp only [lookup]; rfl)

/-- Claim C2: for every state with unique keys and every supported
expression shape, a successful lookup result is strictly ascending:
sorted in ascending order and free of duplicates. -/
theorem c2_lookup_strictly_ascending (env : Env) (s : MetaIndexState) (hk : s.keysNodup)
    (e : Expression) (r : List Nat) (h : lookup env s e = .ok r) :
    r.Sorted (· < ·) ∧ r.Nodup := by
  have hs := lookup_ok_sorted hk e r h
  exact ⟨hs, hs.nodup⟩

/-- Witness for C2 on a concrete disjunction. -/
theorem c2_lookup_strictly_ascending_witness :
    List.Sorted (· < ·) [0, 1] ∧ List.Nodup [0, 1] :=
  c2_lookup_strictly_ascending exEnv exState (by decide) (.disjunction [eOrig, eQuery])
    [0, 1] (by simp only [eOrig, eQuery, lookup, disjFold]; rfl)

/-- Claim C3: lookup of a negation returns exactly all partition ids,
without descending into the negated expression; hence it covers all
partitions minus the lookup of the child. -/
theorem c3_negation_returns_all (env : Env) (s : MetaIndexState) (e : Expression) :
    lookup env s (.negation e) = .ok (allPartitions s) ∧
    (∀ r, lookup env s e = .ok r → ∀ p ∈ allPartitions s, p ∉ r → p ∈ allPartitions s) := by
  constructor
  · simp only [lookup]
  · intro r _ p hp _
    exact hp

/-- Witness for C3: negation of the query predicate returns every
partition of the concrete state, and partition 2, missed by the child,
is covered. -/
theorem c3_negation_returns_all_witness :
    lookup exEnv exState (.negation eQuery) = .ok (allPartitions exState) ∧
    (2 : Nat) ∈ allPartitions exState :=
  ⟨(c3_negation_returns_all exEnv exState eQuery).1,
   (c3_negation_returns_all exEnv exState eQuery).2 [1]
     (by simp only [eQuery, lookup]; rfl) 2 (by decide) (by decide)⟩

/-- Claim C4: lookup of a binary disjunction equals the sorted duplicate
free union of the child lookups; the evaluator folds left from the empty
accumulator and short circuits when a child result already covers every
partition. -/
theorem c4_disjunction_union (env : Env) (s : MetaIndexState) (hk : s.keysNodup)
    (e1 e2 : Expression) (r1 r2 : List Nat)
    (h1 : lookup env s e1 = .ok r1) (h2 : lookup env s e2 = .ok r2) :
    lookup env s (.disjunction [e1, e2]) = .ok (inplaceUnify r1 r2) ∧
    (inplaceUnify r1 r2).Sorted (· < ·) ∧
    (∀ p, p ∈ inplaceUnify r1 r2 ↔ p ∈ r1 ∨ p ∈ r2) := by
  have hs1 := lookup_ok_sorted hk e1 r1 h1
  have hs2 := lookup_ok_sorted hk e2 r2 h2
  have hb1 := lookup_ok_subset e1 r1 h1
  have hb2 := lookup_ok_subset e2 r2 h2
  refine ⟨?_, sorted_inplaceUnify hs2, fun p => mem_inplaceUnify⟩
  simp only [lookup, disjFold, h1, h2, inplaceUnify_nil_left]
  by_cases hl1 : (r1.length == s.synopses.length) = true
  · rw [if_pos hl1]
    have hfull := full_result_covers hb1 hs1.nodup (beq_iff_eq.mp hl1)
    have he : inplaceUnify r1 r2 = r1 :=
      inplaceUnify_eq_left hs1 hs2 (fun a ha => hfull a (hb2 a ha))
    rw [he]
  · rw [if_neg hl1]
    by_cases hl2 : (r2.length == s.synopses.length) = true
    · rw [if_pos hl2]
      have hfull := full_result_covers hb2 hs2.nodup (beq_iff_eq.mp hl2)
      have he : inplaceUnify r1 r2 = r2 :=
        inplaceUnify_eq_right hs2 (fun a ha => hfull a (hb1 a ha))
      rw [he]
    · rw [if_neg hl2]

/-- Witness for C4 on two concrete field predicates. -/
theorem c4_disjunction_union_witness :
    lookup exEnv exState (.disjunction [eOrig, eQuery]) = .ok (inplaceUnify [0] [1]) ∧
    ((0 : Nat) ∈ inplaceUnify [0] [1] ↔ (0 : Nat) ∈ [0] ∨ (0 : Nat) ∈ [1]) :=
  ⟨(c4_disjunction_union exEnv exState (by decide) eOrig eQuery [0] [1]
      (by simp only [eOrig, lookup]; rfl) (by simp only [eQuery, lookup]; rfl)).1,
   (c4_disjunction_union exEnv exState (by decide) eOrig eQuery [0] [1]
      (by simp only [eOrig, lookup]; rfl) (by simp only [eQuery, lookup]; rfl)).2.2 0⟩

/-- Claim C5: lookup of a binary conjunction is contained in the
intersection of the child lookups; the evaluator starts from the first
child result and short circuits to empty on an empty subsequent child. -/
theorem c5_conjunction_subset (env : Env) (s : MetaIndexState)
    (e1 e2 : Expression) (r1 r2 r : List Nat)
    (h1 : lookup env s e1 = .ok r1) (h2 : lookup env s e2 = .ok r2)
    (h : lookup env s (.conjunction [e1, e2]) = .ok r) :
    ∀ p ∈ r, p ∈ r1 ∧ p ∈ r2 := by
  simp only [lookup, h1] at h
  by_cases he1 : r1.isEmpty = true
  · rw [if_pos he1] at h
    cases h
    rw [List.isEmpty_iff] at he1
    rw [he1]
    intro p hp
    cases hp
  · rw [if_neg he1] at h
    simp only [conjFold, h2] at h
    by_cases he2 : r2.isEmpty = true
    · rw [if_pos he2] at h
      cases h
      rw [List.isEmpty_iff] at he2
      rw [he2]
      intro p hp
      cases hp
    · rw [if_neg he2] at h
      cases h
      intro p hp
      exact mem_inplaceIntersect.mp hp

/-- Witness for C5 on a concrete conjunction. -/
theorem c5_conjunction_subset_witness : (1 : Nat) ∈ [1] ∧ (1 : Nat) ∈ [1] :=
  c5_conjunction_subset exEnv exState eQuery eQuery [1] [1] [1]
    (by simp only [eQuery, lookup]; rfl) (by simp only [eQuery, lookup]; rfl)
    (by simp only [eQuery, lookup, conjFold]; rfl) 1 (List.Mem.head _)

/-- A named concrete query type: display name foo over a bool base. -/
def tNamedBool : VType := .mk "foo" [] .tbool

/-- A field whose type is an unnamed bool. -/
def cexField : QualifiedField := ⟨"conn", "conn.flag", .mk "" [] .tbool⟩

/-- A partition synopsis holding only the unnamed bool field, with no
dedicated synopsis for it. -/
def cexPs : PartitionSynopsis := ⟨[(cexField, Option.none)], []⟩

/-- A one partition meta index around cexPs. -/
def cexState : MetaIndexState := ⟨[(0, cexPs)]⟩

/-- Counterexample to claim C6 as stated: the query type tNamedBool has a
display name, so by the claim a field should match only when its type name
equals foo; the only field of the state has an unnamed type, so no field
matches by the claimed rule, yet lookup returns the partition, because the
source dispatches on whether the query type is the none type, not on
whether it has a display name, and matches structurally here. -/
theorem c6_type_extractor_counterexample :
    lookup exEnv cexState (.predicate (.typeEx tNamedBool) .equal (.dat (.str "v"))) =
      .ok [0] ∧
    ¬ ((0 : Nat) ∈ [0] ↔ ∃ fs ∈ cexPs.field_synopses_,
        specTypeMatch tNamedBool fs.1 = true ∧
        fieldAccepted cexPs .equal (.str "v") fs.1 fs.2 = true) := by
  constructor
  · simp only [lookup]
    rfl
  · intro hiff
    rcases hiff.mp (List.Mem.head _) with ⟨fs, hfs, hmatch, _⟩
    rcases List.mem_cons.mp hfs with rfl | hfs2
    · exact absurd hmatch (by decide)
    · cases hfs2

/-- Claim C6 (amended): the type extractor dispatches on whether the query
type t is the none type.  If so, a field matches when its type name equals
the name of t; otherwise a field matches when its type structurally equals
t ignoring names and its own type name is empty.  In both cases a field
also matches when t is named timestamp and the field type carries the
timestamp attribute. -/
theorem c6_type_extractor_matching (env : Env) (s : MetaIndexState) (hk : s.keysNodup)
    (pid : Nat) (ps : PartitionSynopsis) (hmem : (pid, ps) ∈ s.synopses)
    (t : VType) (op : RelOp) (d : VData) (r : List Nat)
    (hr : lookup env s (.predicate (.typeEx t) op (.dat d)) = .ok r) :
    (t.base.isNone = true →
      (pid ∈ r ↔ ∃ fs ∈ ps.field_synopses_,
        ((fs.1.type.name == t.name) ||
          (t.name == "timestamp" && hasAttribute fs.1.type "timestamp")) = true ∧
        fieldAccepted ps op d fs.1 fs.2 = true)) ∧
    (t.base.isNone = false →
      (pid ∈ r ↔ ∃ fs ∈ ps.field_synopses_,
        ((VType.structEq fs.1.type t && (fs.1.type.name == "")) ||
          (t.name == "timestamp" && hasAttribute fs.1.type "timestamp")) = true ∧
        fieldAccepted ps op d fs.1 fs.2 = true)) := by
  simp only [lookup] at hr
  cases hr
  constructor
  · intro hnone
    have hfun : ∀ f, typeExtractorMatch t f =
        ((f.type.name == t.name) ||
          (t.name == "timestamp" && hasAttribute f.type "timestamp")) := by
      intro f
      unfold typeExtractorMatch typeDispatchMatch
      cases h : t.base
      case tnone => rfl
      all_goals (rw [h] at hnone; simp [BaseType.isNone] at hnone)
    simp only [lookupPredicate]
    rw [mem_lookupTypeEx_unique hk hmem, partitionAccepted_iff_exists]
    simp only [hfun]
  · intro hnone
    have hfun : ∀ f, typeExtractorMatch t f =
        ((VType.structEq f.type t && (f.type.name == "")) ||
          (t.name == "timestamp" && hasAttribute f.type "timestamp")) := by
      intro f
      unfold typeExtractorMatch typeDispatchMatch
      cases h : t.base
      case tnone => rw [h] at hnone; simp [BaseType.isNone] at hnone
      all_goals rfl
    simp only [lookupPredicate]
    rw [mem_lookupTypeEx_unique hk hmem, partitionAccepted_iff_exists]
    simp only [hfun]

/-- Witness for the amended C6 at the structural branch: the unnamed bool
field of the counterexample state structurally matches tNamedBool, and the
partition is indeed returned. -/
theorem c6_type_extractor_matching_witness :
    (0 : Nat) ∈ [0] ↔ ∃ fs ∈ cexPs.field_synopses_,
      ((VType.structEq fs.1.type tNamedBool && (fs.1.type.name == "")) ||
        (tNamedBool.name == "timestamp" && hasAttribute fs.1.type "timestamp")) = true ∧
      fieldAccepted cexPs .equal (.str "v") fs.1 fs.2 = true :=
  (c6_type_extractor_matching exEnv cexState (by decide) 0 cexPs (List.Mem.head _)
    tNamedBool .equal (.str "v") [0] (by simp only [lookup]; rfl)).2 rfl

/-- Claim C7: a meta extractor of kind field with a non string right hand
side yields the empty result; with a string right hand side a partition is
contained in the sorted result exactly when the non negativity of the
operator coincides with the existence of a field whose fully qualified
name ends with the string. -/
theorem c7_meta_field (env : Env) (s : MetaIndexState) (hk : s.keysNodup)
    (pid : Nat) (ps : PartitionSynopsis) (hmem : (pid, ps) ∈ s.synopses) (op : RelOp) :
    (∀ d r, d.getStr = Option.none →
      lookup env s (.predicate (.meta .field) op (.dat d)) = .ok r → r = []) ∧
    (∀ s0 r, lookup env s (.predicate (.meta .field) op (.dat (.str s0))) = .ok r →
      (pid ∈ r ↔
        ((!isNegated op) = ps.field_synopses_.any (fun fs => strEndsWith fs.1.fqn s0)))) := by
  constructor
  · intro d r hd hr
    simp only [lookup] at hr
    cases hr
    simp only [lookupPredicate]
    exact lookupMetaField_not_str hd
  · intro s0 r hr
    simp only [lookup] at hr
    cases hr
    simp only [lookupPredicate]
    rw [mem_lookupMetaField_unique hk hmem]
    exact beq_iff_eq

/-- Witness for C7: a count right hand side yields the empty result, and
for the string query the partition of the dns layout is returned. -/
theorem c7_meta_field_witness :
    ([] : List Nat) = [] ∧
    ((1 : Nat) ∈ [1] ↔
      ((!isNegated RelOp.equal) =
        exPs2.field_synopses_.any (fun fs => strEndsWith fs.1.fqn "query"))) :=
  ⟨(c7_meta_field exEnv exState (by decide) 1 exPs2
      (List.Mem.tail _ (List.Mem.head _)) .equal).1 (.dcount 3) [] rfl
      (by simp only [lookup]; rfl),
   (c7_meta_field exEnv exState (by decide) 1 exPs2
      (List.Mem.tail _ (List.Mem.head _)) .equal).2 "query" [1]
      (by simp only [lookup]; rfl)⟩

/-- Claim C8: lookup of the nil expression reports the invalid expression
error, and invalid expression is the only error kind a lookup can surface;
every other diagnostic condition is absorbed into an over approximate
result list. -/
theorem c8_nil_invalid_expression (env : Env) (s : MetaIndexState) :
    lookup env s .nil = .error .invalidExpression ∧
    (∀ e err, lookup env s e = .error err → err = .invalidExpression) := by
  constructor
  · simp only [lookup]
  · intro e err h
    exact lookup_error_invalid e err h

/-- Witness for C8 at the concrete state, discharging the error hypothesis
with the empty conjunction. -/
theorem c8_nil_invalid_expression_witness :
    lookup exEnv exState .nil = .error .invalidExpression ∧
    LookupError.invalidExpression = .invalidExpression :=
  ⟨(c8_nil_invalid_expression exEnv exState).1,
   (c8_nil_invalid_expression exEnv exState).2 (.conjunction []) .invalidExpression
     (by simp only [lookup])⟩

/-- Claim C9: every id in a successful lookup result is a key of the
synopses map, and after erasing a partition its id can no longer be
returned by any lookup. -/
theorem c9_result_ids_are_keys (env : Env) (s : MetaIndexState) :
    (∀ e r, lookup env s e = .ok r → ∀ pid ∈ r, pid ∈ s.synopses.map Prod.fst) ∧
    (∀ q e r, lookup env (s.erase q) e = .ok r → q ∉ r) := by
  constructor
  · intro e r h
    exact lookup_ok_subset e r h
  · intro q e r h hq
    have hkey := lookup_ok_subset e r h q hq
    rcases List.mem_map.mp hkey with ⟨⟨a, b⟩, hab, hfst⟩
    cases hfst
    simp only [MetaIndexState.erase] at hab
    rcases List.mem_filter.mp hab with ⟨_, hne⟩
    simp at hne

/-- Witness for C9: the id returned for the query predicate is a key, and
after erasing partition 1 the same query returns a list not containing
1. -/
theorem c9_result_ids_are_keys_witness :
    (1 : Nat) ∈ exState.synopses.map Prod.fst ∧ ¬ (1 : Nat) ∈ ([] : List Nat) :=
  ⟨(c9_result_ids_are_keys exEnv exState).1 eQuery [1]
      (by simp only [eQuery, lookup]; rfl) 1 (List.Mem.head _),
   (c9_result_ids_are_keys exEnv exState).2 1 eQuery []
      (by simp only [eQuery, lookup]; rfl)⟩

/-- Claim C10: a partition whose synopsis has no fields is never returned
for field extractor, type extractor or meta type predicates, whatever the
operator; for a meta field predicate with string right hand side it is
returned exactly when the operator is negated. -/
theorem c10_empty_partition (env : Env) (s : MetaIndexState) (hk : s.keysNodup)
    (pid : Nat) (ps : PartitionSynopsis) (hmem : (pid, ps) ∈ s.synopses)
    (hemp : ps.field_synopses_ = []) :
    (∀ name op d r, lookup env s (.predicate (.fieldEx name) op (.dat d)) = .ok r →
      pid ∉ r) ∧
    (∀ t op d r, lookup env s (.predicate (.typeEx t) op (.dat d)) = .ok r → pid ∉ r) ∧
    (∀ op d r, lookup env s (.predicate (.meta .type) op (.dat d)) = .ok r → pid ∉ r) ∧
    (∀ op s0 r, lookup env s (.predicate (.meta .field) op (.dat (.str s0))) = .ok r →
      (pid ∈ r ↔ isNegated op = true)) := by
  have hacc : ∀ op d mp, partitionAccepted op d mp ps = false := by
    intro op d mp
    unfold partitionAccepted
    rw [hemp]
    rfl
  refine ⟨?_, ?_, ?_, ?_⟩
  · intro name op d r hr
    simp only [lookup] at hr
    cases hr
    simp only [lookupPredicate]
    intro hmemr
    rw [mem_searchIds_unique hk hmem, hacc] at hmemr
    exact Bool.noConfusion hmemr
  · intro t op d r hr
    simp only [lookup] at hr
    cases hr
    simp only [lookupPredicate]
    intro hmemr
    rw [mem_lookupTypeEx_unique hk hmem, hacc] at hmemr
    exact Bool.noConfusion hmemr
  · intro op d r hr
    simp only [lookup] at hr
    cases hr
    simp only [lookupPredicate]
    intro hmemr
    rw [mem_lookupMetaType_unique hk hmem, hemp] at hmemr
    simp at hmemr
  · intro op s0 r hr
    simp only [lookup] at hr
    cases hr
    simp only [lookupPredicate]
    rw [mem_lookupMetaField_unique hk hmem, hemp]
    cases h : isNegated op <;> simp [h]

/-- Witness for C10 at the empty partition 2 of the concrete state. -/
theorem c10_empty_partition_witness :
    ¬ (2 : Nat) ∈ [1] ∧ ¬ (2 : Nat) ∈ [0] ∧ ¬ (2 : Nat) ∈ ([0] : List Nat) ∧
    ((2 : Nat) ∈ [0, 2] ↔ isNegated .notEqual = true) :=
  ⟨(c10_empty_partition exEnv exState (by decide) 2 exPs3
      (List.Mem.tail _ (List.Mem.tail _ (List.Mem.head _))) rfl).1 "query" .equal
      (.str "x") [1] (by simp only [lookup]; rfl),
   (c10_empty_partition exEnv exState (by decide) 2 exPs3
      (List.Mem.tail _ (List.Mem.tail _ (List.Mem.head _))) rfl).2.1 exAddrType .equal
      (.str "v") [0] (by simp only [lookup]; rfl),
   (c10_empty_partition exEnv exState (by decide) 2 exPs3
      (List.Mem.tail _ (List.Mem.tail _ (List.Mem.head _))) rfl).2.2.1 .equal
      (.str "conn") [0] (by simp only [lookup]; rfl),
   (c10_empty_partition exEnv exState (by decide) 2 exPs3
      (List.Mem.tail _ (List.Mem.tail _ (List.Mem.head _))) rfl).2.2.2 .notEqual
      "query" [0, 2] (by simp only [lookup]; rfl)⟩

end Vast
